import Mathlib

/-!
Formal model of the cryptographic subsystem of the secure password manager
(`src/crypto_manager.py` and the credential store `src/database.py`).

Python strings are modelled as Lean `String`; byte strings (`bytes`) as
`List Nat` with every entry `< 256`.  Machine words are `Nat` with explicit
`% 2^32` masking.  Fallible operations return `Except`/`Option`.

Third-party primitives used by the source are modelled as follows:
* PBKDF2-HMAC-SHA256 (`cryptography.hazmat...PBKDF2HMAC`): implemented in
  full (SHA-256 per FIPS 180-4, HMAC per RFC 2104, PBKDF2 per RFC 2898).
* `cryptography.fernet.Fernet`: the token layout (version byte `0x80`,
  64-bit timestamp, 16-byte IV, ciphertext, 32-byte HMAC-SHA256 tag, the
  whole token base64url-encoded) and the HMAC authentication are modelled
  in full; the AES-128-CBC layer is idealized as an invertible keyed
  stream cipher (XOR with a keystream derived from the encryption half of
  the key and the IV), keeping the PKCS7 padding of the real scheme.
* `bcrypt.checkpw`: its parse-and-raise structure on the stored hash is
  modelled (malformed hash strings raise); the EksBlowfish digest core is
  idealized by a keyed hash, which no claim below depends on.
-/

deriving instance DecidableEq for Except

namespace SecurePM

/-- Truncation to a 32-bit word. -/
def mask32 (x : Nat) : Nat := x % 4294967296

/-- 32-bit modular addition. -/
def add32 (a b : Nat) : Nat := (a + b) % 4294967296

/-- 32-bit right rotation (inputs are kept `< 2^32` by construction). -/
def rotr32 (x n : Nat) : Nat :=
  ((x >>> n) ||| (x <<< (32 - n))) % 4294967296

/-- The eight working variables / hash words of SHA-256. -/
structure Hash8 where
  h0 : Nat
  h1 : Nat
  h2 : Nat
  h3 : Nat
  h4 : Nat
  h5 : Nat
  h6 : Nat
  h7 : Nat

/-- SHA-256 round constants (FIPS 180-4 §4.2.2), in decimal. -/
def sha256K : List Nat :=
  [1116352408, 1899447441, 3049323471, 3921009573, 961987163, 1508970993,
   2453635748, 2870763221, 3624381080, 310598401, 607225278, 1426881987,
   1925078388, 2162078206, 2614888103, 3248222580, 3835390401, 4022224774,
   264347078, 604807628, 770255983, 1249150122, 1555081692, 1996064986,
   2554220882, 2821834349, 2952996808, 3210313671, 3336571891, 3584528711,
   113926993, 338241895, 666307205, 773529912, 1294757372, 1396182291,
   1695183700, 1986661051, 2177026350, 2456956037, 2730485921, 2820302411,
   3259730800, 3345764771, 3516065817, 3600352804, 4094571909, 275423344,
   430227734, 506948616, 659060556, 883997877, 958139571, 1322822218,
   1537002063, 1747873779, 1955562222, 2024104815, 2227730452, 2361852424,
   2428436474, 2756734187, 3204031479, 3329325298]

/-- SHA-256 initial hash value (FIPS 180-4 §5.3.3), in decimal. -/
def sha256Init : Hash8 :=
  ⟨1779033703, 3144134277, 1013904242, 2773480762,
   1359893119, 2600822924, 528734635, 1541459225⟩

/-- Message-schedule extension: appends `n` further words to the 16 words of
a block (FIPS 180-4 §6.2.2 step 1). -/
def sha256Ext (ws : List Nat) : Nat → List Nat
  | 0 => ws
  | n + 1 =>
    let i := ws.length
    let w15 := ws.getD (i - 15) 0
    let w2 := ws.getD (i - 2) 0
    let w16 := ws.getD (i - 16) 0
    let w7 := ws.getD (i - 7) 0
    let s0 := (rotr32 w15 7) ^^^ (rotr32 w15 18) ^^^ (w15 >>> 3)
    let s1 := (rotr32 w2 17) ^^^ (rotr32 w2 19) ^^^ (w2 >>> 10)
    sha256Ext (ws ++ [add32 (add32 w16 s0) (add32 w7 s1)]) n

/-- One SHA-256 round on the working variables, consuming a pair of a
schedule word and a round constant (FIPS 180-4 §6.2.2 step 3). -/
def sha256Round (st : Hash8) (wk : Nat × Nat) : Hash8 :=
  let S1 := (rotr32 st.h4 6) ^^^ (rotr32 st.h4 11) ^^^ (rotr32 st.h4 25)
  let ch := (st.h4 &&& st.h5) ^^^ ((st.h4 ^^^ 4294967295) &&& st.h6)
  let temp1 := add32 st.h7 (add32 S1 (add32 ch (add32 wk.2 wk.1)))
  let S0 := (rotr32 st.h0 2) ^^^ (rotr32 st.h0 13) ^^^ (rotr32 st.h0 22)
  let maj := (st.h0 &&& st.h1) ^^^ (st.h0 &&& st.h2) ^^^ (st.h1 &&& st.h2)
  ⟨add32 temp1 (add32 S0 maj), st.h0, st.h1, st.h2,
   add32 st.h3 temp1, st.h4, st.h5, st.h6⟩

/-- SHA-256 compression of a single 16-word block into the running hash. -/
def sha256Compress (st : Hash8) (blockWords : List Nat) : Hash8 :=
  let ws := sha256Ext blockWords 48
  let f := (ws.zip sha256K).foldl sha256Round st
  ⟨add32 st.h0 f.h0, add32 st.h1 f.h1, add32 st.h2 f.h2, add32 st.h3 f.h3,
   add32 st.h4 f.h4, add32 st.h5 f.h5, add32 st.h6 f.h6, add32 st.h7 f.h7⟩

/-- Big-endian word from a list of bytes. -/
def wordOfBytes (bs : List Nat) : Nat := bs.foldl (fun a b => a * 256 + b % 256) 0

/-- Fuel-driven chunking of a list into pieces of `n` elements. -/
def chunksOfGo (n : Nat) : Nat → List Nat → List (List Nat)
  | 0, _ => []
  | _, [] => []
  | fuel + 1, l => l.take n :: chunksOfGo n fuel (l.drop n)

/-- Splits a byte list into chunks of `n` bytes (last chunk possibly short). -/
def chunksOf (n : Nat) (l : List Nat) : List (List Nat) := chunksOfGo n l.length l

/-- 64-bit big-endian byte encoding. -/
def be64 (n : Nat) : List Nat :=
  [n / 72057594037927936 % 256, n / 281474976710656 % 256,
   n / 1099511627776 % 256, n / 4294967296 % 256,
   n / 16777216 % 256, n / 65536 % 256, n / 256 % 256, n % 256]

/-- SHA-256 message padding (FIPS 180-4 §5.1.1): append `0x80`, zeros to 56
mod 64, then the bit length as 64-bit big-endian. -/
def sha256Pad (msg : List Nat) : List Nat :=
  msg ++ [128] ++ List.replicate ((119 - msg.length % 64) % 64) 0 ++
    be64 (8 * msg.length)

/-- Big-endian byte encoding of a 32-bit word. -/
def wordBytes (w : Nat) : List Nat :=
  [w / 16777216 % 256, w / 65536 % 256, w / 256 % 256, w % 256]

/-- Serialization of the final hash state to 32 bytes. -/
def hashBytes (st : Hash8) : List Nat :=
  wordBytes st.h0 ++ wordBytes st.h1 ++ wordBytes st.h2 ++ wordBytes st.h3 ++
  wordBytes st.h4 ++ wordBytes st.h5 ++ wordBytes st.h6 ++ wordBytes st.h7

/-- SHA-256 of a byte string. -/
def sha256 (msg : List Nat) : List Nat :=
  hashBytes (((chunksOf 64 (sha256Pad msg)).map
    (fun b => (chunksOf 4 b).map wordOfBytes)).foldl sha256Compress sha256Init)

/-- HMAC-SHA256 (RFC 2104): the PRF used by PBKDF2 and by the Fernet token
authentication. -/
def hmacSha256 (key msg : List Nat) : List Nat :=
  let k0 := if 64 < key.length then sha256 key else key
  let kp := k0 ++ List.replicate (64 - k0.length) 0
  sha256 ((kp.map (fun b => b ^^^ 92)) ++
    sha256 ((kp.map (fun b => b ^^^ 54)) ++ msg))

/-- Pointwise XOR of two byte strings (truncating to the shorter). -/
def xorBytes (a b : List Nat) : List Nat := List.zipWith (fun x y => x ^^^ y) a b

/-- The iterated-XOR accumulation inside one PBKDF2 block
(RFC 2898 §5.2: `U_{j+1} = PRF(pw, U_j)`, block value `U_1 ^ ... ^ U_c`). -/
def pbkdf2Go (pw : List Nat) : List Nat → List Nat → Nat → List Nat
  | _, acc, 0 => acc
  | u, acc, n + 1 =>
    let u2 := hmacSha256 pw u
    pbkdf2Go pw u2 (xorBytes acc u2) n

/-- The `i`-th PBKDF2 block `T_i` (1-based `i`). -/
def pbkdf2Block (pw salt : List Nat) (iters i : Nat) : List Nat :=
  let u1 := hmacSha256 pw (salt ++ wordBytes i)
  pbkdf2Go pw u1 u1 (iters - 1)

/-- PBKDF2-HMAC-SHA256 (RFC 2898 §5.2), as instantiated by the source's
`PBKDF2HMAC(algorithm=SHA256, length=dkLen, salt=salt, iterations=iters)`. -/
def pbkdf2HmacSha256 (pw salt : List Nat) (iters dkLen : Nat) : List Nat :=
  (((List.range ((dkLen + 31) / 32)).map
    (fun j => pbkdf2Block pw salt iters (j + 1))).flatten).take dkLen

/-- Big-endian encoding of a number into a fixed count of bytes (used for
the 16-byte IV field of a Fernet token). -/
def beBytes : Nat → Nat → List Nat
  | 0, _ => []
  | k + 1, n => beBytes k (n / 256) ++ [n % 256]

/-- The base64url alphabet used by `base64.urlsafe_b64encode`. -/
def B64_ALPHABET : List Char :=
  "ABCDEFGHIJKLMNOPQRSTUVWXYZabcdefghijklmnopqrstuvwxyz0123456789-_".toList

/-- The character for a sextet value. -/
def b64Char (n : Nat) : Char := B64_ALPHABET.getD n '_'

/-- The sextet value of a character, `none` off the alphabet. -/
def b64CharDec (c : Char) : Option Nat :=
  let v := c.toNat
  if 65 ≤ v ∧ v ≤ 90 then some (v - 65)
  else if 97 ≤ v ∧ v ≤ 122 then some (v - 97 + 26)
  else if 48 ≤ v ∧ v ≤ 57 then some (v - 48 + 52)
  else if v = 45 then some 62
  else if v = 95 then some 63
  else none

/-- Encoding of byte triples into base64 character quadruples, with `=`
padding on a short final group. -/
def b64EncGo : Nat → List Nat → List Char
  | 0, _ => []
  | _, [] => []
  | fuel + 1, b0 :: rest =>
    match rest with
    | [] => [b64Char (b0 / 4), b64Char (b0 % 4 * 16), '=', '=']
    | [b1] => [b64Char (b0 / 4), b64Char (b0 % 4 * 16 + b1 / 16),
               b64Char (b1 % 16 * 4), '=']
    | b1 :: b2 :: rest2 =>
      b64Char (b0 / 4) :: b64Char (b0 % 4 * 16 + b1 / 16) ::
      b64Char (b1 % 16 * 4 + b2 / 64) :: b64Char (b2 % 64) ::
      b64EncGo fuel rest2

/-- `base64.urlsafe_b64encode`, as a string. -/
def b64UrlEncode (bs : List Nat) : String := String.mk (b64EncGo bs.length bs)

/-- Decoding of base64 character quadruples back into bytes.  Mirrors the
failure modes that matter here: off-alphabet characters, `=` anywhere but
the final group, and a length not a multiple of four all fail (the library
collapses every such failure into `InvalidToken`). -/
def b64DecGo : Nat → List Char → Option (List Nat)
  | _, [] => some []
  | 0, _ :: _ => none
  | fuel + 1, c0 :: c1 :: c2 :: c3 :: rest =>
    match b64CharDec c0, b64CharDec c1 with
    | some v0, some v1 =>
      if c2 = '=' then
        if c3 = '=' ∧ rest = [] then some [v0 * 4 + v1 / 16] else none
      else
        match b64CharDec c2 with
        | some v2 =>
          if c3 = '=' then
            if rest = [] then some [v0 * 4 + v1 / 16, v1 % 16 * 16 + v2 / 4]
            else none
          else
            match b64CharDec c3 with
            | some v3 =>
              (b64DecGo fuel rest).map
                (fun tl => (v0 * 4 + v1 / 16) :: (v1 % 16 * 16 + v2 / 4) ::
                  (v2 % 4 * 64 + v3) :: tl)
            | none => none
        | none => none
    | _, _ => none
  | _ + 1, _ => none

/-- `base64.urlsafe_b64decode`, with failures as `none`. -/
def b64UrlDecode (s : String) : Option (List Nat) :=
  b64DecGo s.toList.length s.toList

/-- A `UnicodeDecodeError` value: position and offending byte, plus the
reason text CPython attaches. -/
structure UnicodeErr where
  pos : Nat
  byte : Nat
  reason : String

/-- Lowercase hex digit. -/
def hexDigit (n : Nat) : Char :=
  if n < 10 then Char.ofNat (48 + n) else Char.ofNat (87 + n)

/-- Two-digit lowercase hex rendering of a byte. -/
def hexByte (b : Nat) : String := String.mk [hexDigit (b / 16 % 16), hexDigit (b % 16)]

/-- `str` of a `UnicodeDecodeError` (CPython's single-byte message form;
the multi-byte range form is collapsed to the start position). -/
def unicodeErrMsg (e : UnicodeErr) : String :=
  "'utf-8' codec can't decode byte 0x" ++ hexByte e.byte ++ " in position " ++
    toString e.pos ++ ": " ++ e.reason

/-- UTF-8 encoding of one code point (`str.encode("utf-8")`, per char). -/
def utf8EncodeChar (t : Nat) : List Nat :=
  if t < 128 then [t]
  else if t < 2048 then [192 + t / 64, 128 + t % 64]
  else if t < 65536 then [224 + t / 4096, 128 + t / 64 % 64, 128 + t % 64]
  else [240 + t / 262144, 128 + t / 4096 % 64, 128 + t / 64 % 64, 128 + t % 64]

/-- UTF-8 encoding of a char list. -/
def utf8EncodeList (cs : List Char) : List Nat :=
  (cs.map (fun c => utf8EncodeChar c.toNat)).flatten

/-- `str.encode("utf-8")`. -/
def utf8Encode (s : String) : List Nat := utf8EncodeList s.toList

/-- Strict UTF-8 decoding (`bytes.decode("utf-8")`), with the valid byte
ranges of the Unicode standard (overlong forms and surrogates rejected, as
CPython does), reporting the position, offending start byte and reason of
the first failure. -/
def utf8DecodeGo : Nat → Nat → List Nat → Except UnicodeErr (List Char)
  | 0, pos, _ => .error ⟨pos, 0, "fuel exhausted"⟩
  | _ + 1, _, [] => .ok []
  | fuel + 1, pos, b0 :: rest =>
    if b0 < 128 then
      (utf8DecodeGo fuel (pos + 1) rest).map (fun cs => Char.ofNat b0 :: cs)
    else if b0 < 194 then .error ⟨pos, b0, "invalid start byte"⟩
    else if b0 < 224 then
      match rest with
      | [] => .error ⟨pos, b0, "unexpected end of data"⟩
      | b1 :: rest1 =>
        if 128 ≤ b1 ∧ b1 < 192 then
          (utf8DecodeGo fuel (pos + 2) rest1).map
            (fun cs => Char.ofNat ((b0 - 192) * 64 + (b1 - 128)) :: cs)
        else .error ⟨pos, b0, "invalid continuation byte"⟩
    else if b0 < 240 then
      match rest with
      | [] => .error ⟨pos, b0, "unexpected end of data"⟩
      | b1 :: rest1 =>
        if (if b0 = 224 then 160 else 128) ≤ b1 ∧
            b1 < (if b0 = 237 then 160 else 192) then
          match rest1 with
          | [] => .error ⟨pos, b0, "unexpected end of data"⟩
          | b2 :: rest2 =>
            if 128 ≤ b2 ∧ b2 < 192 then
              (utf8DecodeGo fuel (pos + 3) rest2).map
                (fun cs =>
                  Char.ofNat ((b0 - 224) * 4096 + (b1 - 128) * 64 + (b2 - 128)) :: cs)
            else .error ⟨pos, b0, "invalid continuation byte"⟩
        else .error ⟨pos, b0, "invalid continuation byte"⟩
    else if b0 < 245 then
      match rest with
      | [] => .error ⟨pos, b0, "unexpected end of data"⟩
      | b1 :: rest1 =>
        if (if b0 = 240 then 144 else 128) ≤ b1 ∧
            b1 < (if b0 = 244 then 144 else 192) then
          match rest1 with
          | [] => .error ⟨pos, b0, "unexpected end of data"⟩
          | b2 :: rest2 =>
            if 128 ≤ b2 ∧ b2 < 192 then
              match rest2 with
              | [] => .error ⟨pos, b0, "unexpected end of data"⟩
              | b3 :: rest3 =>
                if 128 ≤ b3 ∧ b3 < 192 then
                  (utf8DecodeGo fuel (pos + 4) rest3).map
                    (fun cs =>
                      Char.ofNat ((b0 - 240) * 262144 + (b1 - 128) * 4096 +
                        (b2 - 128) * 64 + (b3 - 128)) :: cs)
                else .error ⟨pos, b0, "invalid continuation byte"⟩
            else .error ⟨pos, b0, "invalid continuation byte"⟩
        else .error ⟨pos, b0, "invalid continuation byte"⟩
    else .error ⟨pos, b0, "invalid start byte"⟩

/-- `bytes.decode("utf-8")`. -/
def utf8Decode (bs : List Nat) : Except UnicodeErr String :=
  (utf8DecodeGo (bs.length + 1) 0 bs).map (fun cs => String.mk cs)

/-- PKCS7 padding to 16-byte blocks, as applied inside `Fernet.encrypt`. -/
def pkcs7Pad (bs : List Nat) : List Nat :=
  let k := 16 - bs.length % 16
  bs ++ List.replicate k k

/-- PKCS7 unpadding with full validation of the padding bytes, as applied
inside `Fernet.decrypt` (any violation raises `InvalidToken`). -/
def pkcs7Unpad (bs : List Nat) : Option (List Nat) :=
  if bs.length % 16 = 0 then
    match bs.getLast? with
    | some k =>
      if 1 ≤ k ∧ k ≤ 16 ∧ k ≤ bs.length ∧
          bs.drop (bs.length - k) = List.replicate k k
      then some (bs.take (bs.length - k)) else none
    | none => none
  else none

/-- Keystream of `n` bytes derived from the encryption half of the key and
the IV (the idealization of the AES-128-CBC layer: an invertible keyed
stream; the real scheme's confidentiality layer is likewise a bijection
between padded plaintext and ciphertext for a fixed key and IV). -/
def keyStream (ek ivb : List Nat) (n : Nat) : List Nat :=
  (((List.range ((n + 31) / 32)).map
    (fun i => sha256 (ek ++ ivb ++ wordBytes i))).flatten).take n

/-- The confidentiality layer: XOR of the padded plaintext with the
keystream.  Self-inverse for a fixed key and IV. -/
def streamEncrypt (ek ivb pt : List Nat) : List Nat :=
  xorBytes (keyStream ek ivb pt.length) pt

/-- The HMAC-SHA256 signing half of a 32-byte Fernet key. -/
def fernetSigningKey (key : List Nat) : List Nat := key.take 16

/-- The encryption half of a 32-byte Fernet key. -/
def fernetEncKeyHalf (key : List Nat) : List Nat := key.drop 16

/-- The authenticated part of a Fernet token: version byte `0x80`, 8-byte
big-endian timestamp, 16-byte IV, ciphertext of the padded plaintext. -/
def fernetBody (key tsb ivb data : List Nat) : List Nat :=
  128 :: (tsb ++ ivb ++ streamEncrypt (fernetEncKeyHalf key) ivb (pkcs7Pad data))

/-- A raw Fernet token: the body followed by its HMAC-SHA256 tag under the
signing half of the key. -/
def fernetToken (key tsb ivb data : List Nat) : List Nat :=
  fernetBody key tsb ivb data ++
    hmacSha256 (fernetSigningKey key) (fernetBody key tsb ivb data)

/-- The raw token bytes of `Fernet.encrypt` for timestamp `ts` and IV
`iv` (the library draws both at call time; here they are inputs). -/
def fernetEncryptBytes (key : List Nat) (ts iv : Nat) (data : List Nat) : List Nat :=
  fernetToken key (be64 ts) (beBytes 16 iv) data

/-- `Fernet.encrypt` (the token as base64url text). -/
def fernetEncrypt (key : List Nat) (ts iv : Nat) (data : List Nat) : String :=
  b64UrlEncode (fernetEncryptBytes key ts iv data)

/-- The post-base64 part of `Fernet.decrypt` with `ttl=None`: check the
version byte, recompute and compare the HMAC tag over everything but the
tag, decrypt the ciphertext field, unpad.  Every failure is
`InvalidToken`, which carries no information (`error ()`). -/
def fernetDecryptBytes (key : List Nat) (tb : List Nat) : Except Unit (List Nat) :=
  if tb.length < 9 then .error ()
  else if tb.getD 0 0 ≠ 128 then .error ()
  else if tb.drop (tb.length - 32) ≠
      hmacSha256 (fernetSigningKey key) (tb.take (tb.length - 32)) then .error ()
  else
    match pkcs7Unpad (streamEncrypt (fernetEncKeyHalf key)
        ((tb.drop 9).take 16) ((tb.take (tb.length - 32)).drop 25)) with
    | some data => .ok data
    | none => .error ()

/-- `Fernet.decrypt` with `ttl=None` (base64 failures also collapse to
`InvalidToken`). -/
def fernetDecrypt (key : List Nat) (token : String) : Except Unit (List Nat) :=
  match b64UrlDecode token with
  | none => .error ()
  | some tb => fernetDecryptBytes key tb

/-- `CryptoManager.ITERATIONS`. -/
def ITERATIONS : Nat := 480000

/-- The raw 32-byte key produced by `kdf.derive(master_password.encode())`
inside `CryptoManager._derive_key` — the spec's
`deriveKey(masterPassword, salt, iterations)`. -/
def deriveKey (masterPassword : String) (salt : List Nat) (iterations : Nat) :
    List Nat :=
  pbkdf2HmacSha256 (utf8Encode masterPassword) salt iterations 32

/-- `CryptoManager._derive_key`: the PBKDF2 output under the fixed
iteration count, base64url-encoded because Fernet requires a base64 key. -/
def derive_key (masterPassword : String) (salt : List Nat) : String :=
  b64UrlEncode (deriveKey masterPassword salt ITERATIONS)

/-- `CryptoManager._load_or_create_salt`.  The salt file's contents stand
as the first argument (`none` when `salt.key` does not exist), the
`os.urandom(16)` draw as the second; the result is the salt returned plus
the file contents afterwards.  The source performs no validation of an
existing file's contents and has no failure path. -/
def load_or_create_salt (saltFile : Option (List Nat)) (fresh : List Nat) :
    List Nat × Option (List Nat) :=
  match saltFile with
  | some contents => (contents, some contents)
  | none => (fresh, some fresh)

/-- The fields `CryptoManager.__init__` assigns. -/
structure CryptoManagerState where
  master_password : String
  salt : List Nat
  key : String

/-- `CryptoManager.__init__`: load or create the salt, then derive the
key.  There is no failure path. -/
def cryptoManagerInit (saltFile : Option (List Nat)) (fresh : List Nat)
    (pw : String) : CryptoManagerState × Option (List Nat) :=
  let s := load_or_create_salt saltFile fresh
  (⟨pw, s.1, derive_key pw s.1⟩, s.2)

/-- `CryptoManager.encrypt`.  `fernetKey` is the 32 raw key bytes Fernet
recovers from the base64 `self.key`; `ts` and `iv` are the timestamp and
IV the library draws inside `fernet.encrypt`. -/
def encrypt (fernetKey : List Nat) (ts iv : Nat) (plaintext : String) : String :=
  if plaintext = "" then ""
  else fernetEncrypt fernetKey ts iv (utf8Encode plaintext)

/-- `CryptoManager.decrypt`: empty in, empty out; otherwise
`fernet.decrypt` then `.decode()`, inside a try block whose handler
raises `ValueError("Decryption failed: " + str(e))`.  `str` of
`InvalidToken` is the empty string; `str` of a `UnicodeDecodeError`
carries position, byte and reason. -/
def decrypt (fernetKey : List Nat) (ciphertext : String) : Except String String :=
  if ciphertext = "" then .ok ""
  else
    match fernetDecrypt fernetKey ciphertext with
    | .ok bytes =>
      match utf8Decode bytes with
      | .ok s => .ok s
      | .error e => .error ("Decryption failed: " ++ unicodeErrMsg e)
    | .error _ => .error "Decryption failed: "

/-- A Fernet token that is MAC-valid under the key `List.range 32` but
whose plaintext is the single byte `0xff` — not valid UTF-8.  Any holder
of the key (for example another Fernet client sharing the vault key) can
produce such a token; `encrypt` itself never does. -/
def nonUtf8Token : String := fernetEncrypt (List.range 32) 0 0 [255]

/-- The bcrypt radix-64 alphabet. -/
def BCRYPT_B64 : List Char :=
  "./ABCDEFGHIJKLMNOPQRSTUVWXYZabcdefghijklmnopqrstuvwxyz0123456789".toList

/-- Character for a bcrypt radix-64 value. -/
def bcChar (n : Nat) : Char := BCRYPT_B64.getD n '.'

/-- bcrypt radix-64 rendering of digest bytes (no padding). -/
def bcryptB64Enc : Nat → List Nat → List Char
  | 0, _ => []
  | _, [] => []
  | _ + 1, [b0] => [bcChar (b0 / 4), bcChar (b0 % 4 * 16)]
  | _ + 1, [b0, b1] =>
    [bcChar (b0 / 4), bcChar (b0 % 4 * 16 + b1 / 16), bcChar (b1 % 16 * 4)]
  | fuel + 1, b0 :: b1 :: b2 :: rest =>
    bcChar (b0 / 4) :: bcChar (b0 % 4 * 16 + b1 / 16) ::
    bcChar (b1 % 16 * 4 + b2 / 64) :: bcChar (b2 % 64) :: bcryptB64Enc fuel rest

/-- Parse of a modular-crypt bcrypt hash `$2b$NN$` + 22 salt chars + 31
digest chars: the validation the bcrypt backend performs before hashing
(any violation raises `ValueError("Invalid salt")`, which
`verify_master_password` catches). -/
def parseBcryptHash (h : String) : Option (Char × Nat × List Char × List Char) :=
  match h.toList with
  | '$' :: '2' :: v :: '$' :: d1 :: d2 :: '$' :: rest =>
    if (v = 'a' ∨ v = 'b' ∨ v = 'x' ∨ v = 'y') ∧ d1.isDigit ∧ d2.isDigit ∧
        rest.length = 53 ∧ rest.all (fun c => BCRYPT_B64.contains c) ∧
        4 ≤ (d1.toNat - 48) * 10 + (d2.toNat - 48) ∧
        (d1.toNat - 48) * 10 + (d2.toNat - 48) ≤ 31 then
      some (v, (d1.toNat - 48) * 10 + (d2.toNat - 48), rest.take 22, rest.drop 22)
    else none
  | _ => none

/-- Idealization of the EksBlowfish digest core of bcrypt (a keyed hash of
password and salt; 23 bytes).  No claim here depends on its internals,
only on `checkpw`'s parse-and-raise structure around it. -/
def bcryptDigest (password salt : List Nat) : List Nat :=
  (hmacSha256 salt password).take 23

/-- `bcrypt.hashpw(password, settings)` for parsed settings: rebuilds the
modular-crypt string from the same version, cost and salt plus the digest
of the presented password. -/
def hashpwWith (password : String) (v : Char) (cost : Nat)
    (saltChars : List Char) : String :=
  String.mk ('$' :: '2' :: v :: '$' :: Char.ofNat (48 + cost / 10) ::
    Char.ofNat (48 + cost % 10) :: '$' ::
    (saltChars ++ bcryptB64Enc 23 (bcryptDigest (utf8Encode password)
      (saltChars.map Char.toNat))))

/-- `bcrypt.checkpw`: raises on a NUL byte in the password or a malformed
hash; otherwise compares `hashpw(password, hashed)` with `hashed` in
constant time (the comparison is modelled as equality; constant-timeness
is not observable in this embedding). -/
def checkpw (password hashed : String) : Except Unit Bool :=
  if (utf8Encode password).contains 0 then .error ()
  else
    match parseBcryptHash hashed with
    | none => .error ()
    | some (v, cost, saltChars, _) =>
      .ok (hashpwWith password v cost saltChars == hashed)

/-- `CryptoManager.verify_master_password`: `bcrypt.checkpw` inside a try
block returning `False` on any exception. -/
def verify_master_password (password hashed : String) : Bool :=
  match checkpw password hashed with
  | .ok b => b
  | .error _ => false

/-- ASCII restriction of Python's `str.isupper` on one character (the
model reads the Unicode character-class predicates at their ASCII
fragment). -/
def pyIsUpper (c : Char) : Bool := 65 ≤ c.toNat && c.toNat ≤ 90

/-- ASCII restriction of Python's `str.islower` on one character. -/
def pyIsLower (c : Char) : Bool := 97 ≤ c.toNat && c.toNat ≤ 122

/-- ASCII restriction of Python's `str.isdigit` on one character. -/
def pyIsDigit (c : Char) : Bool := 48 ≤ c.toNat && c.toNat ≤ 57

/-- The literal special-character set of `validate_password_strength`. -/
def SPECIAL_CHARS : List Char := "!@#$%^&*()_+-=[]\x7b\x7d|;:,.<>?".toList

/-- The list `[has_upper, has_lower, has_digit, has_special]` built by
`validate_password_strength`. -/
def strengthChecks (password : String) : List Bool :=
  [password.toList.any pyIsUpper, password.toList.any pyIsLower,
   password.toList.any pyIsDigit,
   password.toList.any (fun c => SPECIAL_CHARS.contains c)]

/-- `CryptoManager.validate_password_strength`. -/
def validate_password_strength (password : String) : Bool × String :=
  if password.length < 8 then
    (false, "Password must be at least 8 characters long")
  else if (strengthChecks password).count true < 3 then
    (false,
     "Password must contain at least 3 of: uppercase, lowercase, digit, special character")
  else (true, "")

/-- A row of the `credentials` table. -/
structure CredentialRow where
  id : Nat
  website : String
  username : String
  encrypted_password : String
  url : String
  notes : String
  created_at : String
  modified_at : String
deriving DecidableEq

/-- `Database.update_credential`: build the SET clause from the provided
optional fields in the source's order; with none provided, return before
any statement is issued; otherwise also set `modified_at` to
`datetime.now().isoformat()` (passed in as `now`) and update the matching
row. -/
def update_credential (rows : List CredentialRow) (credential_id : Nat)
    (website username encrypted_password url notes : Option String)
    (now : String) : List CredentialRow :=
  let updates : List (CredentialRow → CredentialRow) :=
    (match website with
     | some w => [fun r => { r with website := w }]
     | none => []) ++
    (match username with
     | some u => [fun r => { r with username := u }]
     | none => []) ++
    (match encrypted_password with
     | some e => [fun r => { r with encrypted_password := e }]
     | none => []) ++
    (match url with
     | some u => [fun r => { r with url := u }]
     | none => []) ++
    (match notes with
     | some n => [fun r => { r with notes := n }]
     | none => [])
  if updates.isEmpty then rows
  else
    rows.map fun r =>
      if r.id = credential_id then
        { updates.foldl (fun r f => f r) r with modified_at := now }
      else r

theorem hashBytes_length (st : Hash8) : (hashBytes st).length = 32 := by
  simp [hashBytes, wordBytes]

theorem sha256_length (msg : List Nat) : (sha256 msg).length = 32 := by
  simp [sha256, hashBytes_length]

theorem wordBytes_lt (w : Nat) : ∀ b ∈ wordBytes w, b < 256 := by
  intro b hb
  simp [wordBytes] at hb
  rcases hb with h | h | h | h <;> omega

theorem sha256_lt (msg : List Nat) : ∀ b ∈ sha256 msg, b < 256 := by
  intro b hb
  simp only [sha256, hashBytes, List.mem_append] at hb
  rcases hb with ((((((h | h) | h) | h) | h) | h) | h) | h <;>
    exact wordBytes_lt _ _ h

theorem hmacSha256_length (key msg : List Nat) :
    (hmacSha256 key msg).length = 32 := sha256_length _

theorem hmacSha256_lt (key msg : List Nat) :
    ∀ b ∈ hmacSha256 key msg, b < 256 := sha256_lt _

theorem xorBytes_length (a b : List Nat) :
    (xorBytes a b).length = min a.length b.length := List.length_zipWith _ _ _

theorem pbkdf2Go_length (pw : List Nat) :
    ∀ (n : Nat) (u acc : List Nat), acc.length = 32 →
      (pbkdf2Go pw u acc n).length = 32 := by
  intro n
  induction n with
  | zero => intro u acc h; simpa [pbkdf2Go] using h
  | succ n ih =>
    intro u acc h
    simp only [pbkdf2Go]
    exact ih _ _ (by simp [xorBytes_length, h, hmacSha256_length])

theorem pbkdf2Block_length (pw salt : List Nat) (iters i : Nat) :
    (pbkdf2Block pw salt iters i).length = 32 :=
  pbkdf2Go_length pw _ _ _ (hmacSha256_length _ _)

theorem pbkdf2_length32 (pw salt : List Nat) (iters : Nat) :
    (pbkdf2HmacSha256 pw salt iters 32).length = 32 := by
  simp [pbkdf2HmacSha256, List.range_succ, pbkdf2Block_length]

theorem xorBytes_lt : ∀ (a b : List Nat), (∀ x ∈ a, x < 256) →
    (∀ y ∈ b, y < 256) → ∀ z ∈ xorBytes a b, z < 256 := by
  intro a
  induction a with
  | nil => simp [xorBytes]
  | cons x a ih =>
    intro b ha hb
    cases b with
    | nil => simp [xorBytes]
    | cons y b =>
      intro z hz
      simp only [xorBytes, List.zipWith_cons_cons, List.mem_cons] at hz
      rcases hz with h | h
      · have hx : x < 2 ^ 8 := by have := ha x (by simp); omega
        have hy : y < 2 ^ 8 := by have := hb y (by simp); omega
        have := Nat.xor_lt_two_pow hx hy
        omega
      · exact ih b (fun u hu => ha u (by simp [hu]))
          (fun v hv => hb v (by simp [hv])) z h

theorem pbkdf2Go_lt (pw : List Nat) :
    ∀ (n : Nat) (u acc : List Nat), (∀ b ∈ acc, b < 256) →
      ∀ b ∈ pbkdf2Go pw u acc n, b < 256 := by
  intro n
  induction n with
  | zero => intro u acc h; simpa [pbkdf2Go] using h
  | succ n ih =>
    intro u acc h
    simp only [pbkdf2Go]
    exact ih _ _ (xorBytes_lt _ _ h (hmacSha256_lt _ _))

theorem pbkdf2_lt32 (pw salt : List Nat) (iters : Nat) :
    ∀ b ∈ pbkdf2HmacSha256 pw salt iters 32, b < 256 := by
  intro b hb
  have hb2 : b ∈ pbkdf2Block pw salt iters 1 := by
    simpa [pbkdf2HmacSha256, List.range_succ] using List.mem_of_mem_take hb
  exact pbkdf2Go_lt pw _ _ _ (hmacSha256_lt _ _) b hb2

theorem beBytes_length (k : Nat) : ∀ n, (beBytes k n).length = k := by
  induction k with
  | zero => intro n; rfl
  | succ k ih => intro n; simp [beBytes, ih]

theorem beBytes_lt (k : Nat) : ∀ n, ∀ b ∈ beBytes k n, b < 256 := by
  induction k with
  | zero => intro n; simp [beBytes]
  | succ k ih =>
    intro n b hb
    simp only [beBytes, List.mem_append, List.mem_singleton] at hb
    rcases hb with h | h
    · exact ih _ b h
    · omega

theorem b64CharDec_b64Char : ∀ n < 64, b64CharDec (b64Char n) = some n := by
  decide

theorem b64Char_ne_pad : ∀ n, b64Char n ≠ '=' := by
  intro n
  by_cases h : n < 64
  · revert n h
    decide
  · have : (B64_ALPHABET).length = 64 := by decide
    unfold b64Char
    rw [List.getD_eq_default]
    · decide
    · omega

theorem b64EncGo_length_ge :
    ∀ (f : Nat) (bs : List Nat), bs.length ≤ f →
      bs.length ≤ (b64EncGo f bs).length := by
  intro f
  induction f with
  | zero =>
    intro bs h
    have : bs = [] := List.eq_nil_of_length_eq_zero (by omega)
    simp [this, b64EncGo]
  | succ f ih =>
    intro bs h
    match bs with
    | [] => simp [b64EncGo]
    | [b0] => simp [b64EncGo]
    | [b0, b1] => simp [b64EncGo]
    | b0 :: b1 :: b2 :: rest2 =>
      have hr : rest2.length ≤ f := by
        simp only [List.length_cons] at h; omega
      have := ih rest2 hr
      simp only [b64EncGo, List.length_cons]
      omega

theorem b64DecGo_b64EncGo :
    ∀ (f : Nat) (bs : List Nat) (g : Nat), bs.length ≤ f → bs.length ≤ g →
      (∀ b ∈ bs, b < 256) → b64DecGo g (b64EncGo f bs) = some bs := by
  intro f
  induction f with
  | zero =>
    intro bs g h _ _
    have : bs = [] := List.eq_nil_of_length_eq_zero (by omega)
    simp [this, b64EncGo, b64DecGo]
  | succ f ih =>
    intro bs g hf hg hlt
    match bs with
    | [] => simp [b64EncGo, b64DecGo]
    | [b0] =>
      have hb0 : b0 < 256 := hlt b0 (by simp)
      obtain ⟨g', rfl⟩ : ∃ g', g = g' + 1 := by
        cases g with
        | zero => simp at hg
        | succ g' => exact ⟨g', rfl⟩
      have h0 : b64CharDec (b64Char (b0 / 4)) = some (b0 / 4) :=
        b64CharDec_b64Char _ (by omega)
      have h1 : b64CharDec (b64Char (b0 % 4 * 16)) = some (b0 % 4 * 16) :=
        b64CharDec_b64Char _ (by omega)
      simp [b64EncGo, b64DecGo, h0, h1]
      omega
    | [b0, b1] =>
      have hb0 : b0 < 256 := hlt b0 (by simp)
      have hb1 : b1 < 256 := hlt b1 (by simp)
      obtain ⟨g', rfl⟩ : ∃ g', g = g' + 1 := by
        cases g with
        | zero => simp at hg
        | succ g' => exact ⟨g', rfl⟩
      have h0 : b64CharDec (b64Char (b0 / 4)) = some (b0 / 4) :=
        b64CharDec_b64Char _ (by omega)
      have h1 : b64CharDec (b64Char (b0 % 4 * 16 + b1 / 16)) =
          some (b0 % 4 * 16 + b1 / 16) := b64CharDec_b64Char _ (by omega)
      have h2 : b64CharDec (b64Char (b1 % 16 * 4)) = some (b1 % 16 * 4) :=
        b64CharDec_b64Char _ (by omega)
      simp [b64EncGo, b64DecGo, h0, h1, h2, b64Char_ne_pad]
      omega
    | b0 :: b1 :: b2 :: rest2 =>
      have hb0 : b0 < 256 := hlt b0 (by simp)
      have hb1 : b1 < 256 := hlt b1 (by simp)
      have hb2 : b2 < 256 := hlt b2 (by simp)
      obtain ⟨g', rfl⟩ : ∃ g', g = g' + 1 := by
        cases g with
        | zero => simp at hg
        | succ g' => exact ⟨g', rfl⟩
      have hf' : rest2.length ≤ f := by
        simp only [List.length_cons] at hf; omega
      have hg' : rest2.length ≤ g' := by
        simp only [List.length_cons] at hg; omega
      have hlt' : ∀ b ∈ rest2, b < 256 := fun b hb => hlt b (by simp [hb])
      have h0 : b64CharDec (b64Char (b0 / 4)) = some (b0 / 4) :=
        b64CharDec_b64Char _ (by omega)
      have h1 : b64CharDec (b64Char (b0 % 4 * 16 + b1 / 16)) =
          some (b0 % 4 * 16 + b1 / 16) := b64CharDec_b64Char _ (by omega)
      have h2 : b64CharDec (b64Char (b1 % 16 * 4 + b2 / 64)) =
          some (b1 % 16 * 4 + b2 / 64) := b64CharDec_b64Char _ (by omega)
      have h3 : b64CharDec (b64Char (b2 % 64)) = some (b2 % 64) :=
        b64CharDec_b64Char _ (by omega)
      have hrec := ih rest2 g' hf' hg' hlt'
      simp [b64EncGo, b64DecGo, h0, h1, h2, h3, b64Char_ne_pad, hrec]
      omega

theorem b64UrlDecode_b64UrlEncode (bs : List Nat) (h : ∀ b ∈ bs, b < 256) :
    b64UrlDecode (b64UrlEncode bs) = some bs :=
  b64DecGo_b64EncGo bs.length bs _ le_rfl
    (b64EncGo_length_ge bs.length bs le_rfl) h

theorem b64UrlEncode_ne_empty (b0 : Nat) (rest : List Nat) :
    b64UrlEncode (b0 :: rest) ≠ "" := by
  unfold b64UrlEncode
  match rest with
  | [] => simp [b64EncGo, String.ext_iff]
  | [b1] => simp [b64EncGo, String.ext_iff]
  | b1 :: b2 :: rest2 => simp [b64EncGo, String.ext_iff]

theorem utf8EncodeChar_lt (t : Nat) (h : t < 1114112) :
    ∀ b ∈ utf8EncodeChar t, b < 256 := by
  intro b hb
  unfold utf8EncodeChar at hb
  split_ifs at hb <;> simp at hb <;> omega

theorem utf8EncodeList_lt (cs : List Char) : ∀ b ∈ utf8EncodeList cs, b < 256 := by
  intro b hb
  simp only [utf8EncodeList, List.mem_flatten, List.mem_map] at hb
  obtain ⟨l, ⟨c, _, rfl⟩, hbl⟩ := hb
  have hv : Nat.isValidChar c.toNat := c.valid
  rcases hv with hv | hv
  · exact utf8EncodeChar_lt _ (by omega) b hbl
  · exact utf8EncodeChar_lt _ (by omega) b hbl

theorem utf8EncodeChar_length_pos (t : Nat) : 1 ≤ (utf8EncodeChar t).length := by
  unfold utf8EncodeChar
  split_ifs <;> simp

theorem length_le_utf8EncodeList (cs : List Char) :
    cs.length ≤ (utf8EncodeList cs).length := by
  induction cs with
  | nil => simp [utf8EncodeList]
  | cons c cs ih =>
    simp only [utf8EncodeList, List.map_cons, List.flatten_cons,
      List.length_append, List.length_cons]
    have := utf8EncodeChar_length_pos c.toNat
    simp only [utf8EncodeList] at ih
    omega

/-- Decoding steps over one encoded character, consuming one unit of fuel. -/
theorem utf8DecodeGo_encChar (c : Char) (tail : List Nat) (fuel pos : Nat) :
    utf8DecodeGo (fuel + 1) pos (utf8EncodeChar c.toNat ++ tail) =
      (utf8DecodeGo fuel (pos + (utf8EncodeChar c.toNat).length) tail).map
        (fun cs => c :: cs) := by
  have hv : Nat.isValidChar c.toNat := c.valid
  have hofn : Char.ofNat c.toNat = c := Char.ofNat_toNat c
  set t := c.toNat with ht
  by_cases h1 : t < 128
  · have he : utf8EncodeChar t = [t] := by unfold utf8EncodeChar; rw [if_pos h1]
    rw [he]
    simp [utf8DecodeGo, h1, hofn]
  · by_cases h2 : t < 2048
    · have he : utf8EncodeChar t = [192 + t / 64, 128 + t % 64] := by
        unfold utf8EncodeChar; rw [if_neg h1, if_pos h2]
      rw [he]
      have c1 : ¬(192 + t / 64 < 128) := by omega
      have c2 : ¬(192 + t / 64 < 194) := by omega
      have c3 : 192 + t / 64 < 224 := by omega
      have c4 : 128 ≤ 128 + t % 64 := by omega
      have c5 : 128 + t % 64 < 192 := by omega
      have harg : t / 64 * 64 + t % 64 = t := by omega
      simp [utf8DecodeGo, c1, c2, c3, c4, c5, harg, hofn]
    · by_cases h3 : t < 65536
      · have hns : t < 55296 ∨ 57343 < t := by
          rcases hv with hv | hv <;> omega
        have he : utf8EncodeChar t =
            [224 + t / 4096, 128 + t / 64 % 64, 128 + t % 64] := by
          unfold utf8EncodeChar; rw [if_neg h1, if_neg h2, if_pos h3]
        rw [he]
        have c1 : ¬(224 + t / 4096 < 128) := by omega
        have c2 : ¬(224 + t / 4096 < 194) := by omega
        have c3 : ¬(224 + t / 4096 < 224) := by omega
        have c4 : 224 + t / 4096 < 240 := by omega
        have c5 : (if 224 + t / 4096 = 224 then 160 else 128) ≤ 128 + t / 64 % 64 := by
          split_ifs <;> omega
        have c6 : 128 + t / 64 % 64 < (if 224 + t / 4096 = 237 then 160 else 192) := by
          split_ifs <;> omega
        have c7 : 128 ≤ 128 + t % 64 := by omega
        have c8 : 128 + t % 64 < 192 := by omega
        have harg : t / 4096 * 4096 + t / 64 % 64 * 64 + t % 64 = t := by omega
        simp [utf8DecodeGo, c1, c2, c3, c4, c5, c6, c7, c8, harg, hofn]
        intro hcontra
        split_ifs at hcontra <;> omega
      · have h4 : t < 1114112 := by rcases hv with hv | hv <;> omega
        have he : utf8EncodeChar t =
            [240 + t / 262144, 128 + t / 4096 % 64, 128 + t / 64 % 64,
             128 + t % 64] := by
          unfold utf8EncodeChar; rw [if_neg h1, if_neg h2, if_neg h3]
        rw [he]
        have c1 : ¬(240 + t / 262144 < 128) := by omega
        have c2 : ¬(240 + t / 262144 < 194) := by omega
        have c3 : ¬(240 + t / 262144 < 224) := by omega
        have c4 : ¬(240 + t / 262144 < 240) := by omega
        have c5 : 240 + t / 262144 < 245 := by omega
        have c6 : (if 240 + t / 262144 = 240 then 144 else 128) ≤
            128 + t / 4096 % 64 := by
          split_ifs <;> omega
        have c7 : 128 + t / 4096 % 64 < (if 240 + t / 262144 = 244 then 144 else 192) := by
          split_ifs <;> omega
        have c8 : 128 ≤ 128 + t / 64 % 64 := by omega
        have c9 : 128 + t / 64 % 64 < 192 := by omega
        have c10 : 128 ≤ 128 + t % 64 := by omega
        have c11 : 128 + t % 64 < 192 := by omega
        have harg : t / 262144 * 262144 + t / 4096 % 64 * 4096 +
            t / 64 % 64 * 64 + t % 64 = t := by omega
        simp [utf8DecodeGo, c1, c2, c3, c4, c5, c6, c7, c8, c9, c10, c11,
          harg, hofn]
        intro hcontra
        split_ifs at hcontra <;> omega

theorem utf8DecodeGo_encodeList :
    ∀ (cs : List Char) (fuel pos : Nat), cs.length < fuel →
      utf8DecodeGo fuel pos (utf8EncodeList cs) = .ok cs := by
  intro cs
  induction cs with
  | nil =>
    intro fuel pos h
    cases fuel with
    | zero => omega
    | succ f => simp [utf8EncodeList, utf8DecodeGo]
  | cons c cs ih =>
    intro fuel pos h
    cases fuel with
    | zero => simp at h
    | succ f =>
      have hstep : utf8EncodeList (c :: cs) =
          utf8EncodeChar c.toNat ++ utf8EncodeList cs := by
        simp [utf8EncodeList]
      rw [hstep, utf8DecodeGo_encChar]
      rw [ih f _ (by simp at h; omega)]
      rfl

/-- UTF-8 decoding undoes UTF-8 encoding. -/
theorem utf8Decode_utf8Encode (s : String) : utf8Decode (utf8Encode s) = .ok s := by
  unfold utf8Decode utf8Encode
  rw [utf8DecodeGo_encodeList s.toList _ 0
    (Nat.lt_succ_of_le (length_le_utf8EncodeList s.toList))]
  rfl

theorem pkcs7Pad_length (bs : List Nat) :
    (pkcs7Pad bs).length = bs.length + (16 - bs.length % 16) := by
  simp [pkcs7Pad]

theorem pkcs7Pad_lt (bs : List Nat) (h : ∀ b ∈ bs, b < 256) :
    ∀ b ∈ pkcs7Pad bs, b < 256 := by
  intro b hb
  simp only [pkcs7Pad, List.mem_append, List.mem_replicate] at hb
  rcases hb with hb | hb
  · exact h b hb
  · omega

theorem pkcs7Unpad_pkcs7Pad (bs : List Nat) : pkcs7Unpad (pkcs7Pad bs) = some bs := by
  have hpad : pkcs7Pad bs =
      bs ++ List.replicate (16 - bs.length % 16) (16 - bs.length % 16) := rfl
  generalize hk : 16 - bs.length % 16 = k at hpad
  have hk1 : 1 ≤ k := by omega
  have hk2 : k ≤ 16 := by omega
  have hkm : (bs.length + k) % 16 = 0 := by omega
  have hk3 : k ≤ bs.length + k := by omega
  have hlast : (bs ++ List.replicate k k).getLast? = some k := by
    rw [List.getLast?_append, List.getLast?_replicate, if_neg (by omega)]
    rfl
  rw [hpad]
  unfold pkcs7Unpad
  rw [List.length_append, List.length_replicate, if_pos hkm, hlast]
  have harith : bs.length + k - k = bs.length := by omega
  simp [hk1, hk2, hk3, harith, List.drop_left, List.take_left]

theorem flatten_length_const (f : Nat → List Nat) :
    ∀ (l : List Nat), (∀ x ∈ l, (f x).length = 32) →
      ((l.map f).flatten).length = 32 * l.length := by
  intro l
  induction l with
  | nil => simp
  | cons x l ih =>
    intro h
    simp only [List.map_cons, List.flatten_cons, List.length_append,
      List.length_cons]
    rw [h x (by simp), ih (fun y hy => h y (by simp [hy]))]
    ring

theorem keyStream_length (ek ivb : List Nat) (n : Nat) :
    (keyStream ek ivb n).length = n := by
  unfold keyStream
  rw [List.length_take, flatten_length_const _ _ (fun x _ => sha256_length _)]
  simp only [List.length_range]
  omega

theorem keyStream_lt (ek ivb : List Nat) (n : Nat) :
    ∀ b ∈ keyStream ek ivb n, b < 256 := by
  intro b hb
  unfold keyStream at hb
  have hb2 := List.mem_of_mem_take hb
  simp only [List.mem_flatten, List.mem_map] at hb2
  obtain ⟨l, ⟨i, _, rfl⟩, hbl⟩ := hb2
  exact sha256_lt _ b hbl

theorem streamEncrypt_length (ek ivb pt : List Nat) :
    (streamEncrypt ek ivb pt).length = pt.length := by
  simp [streamEncrypt, xorBytes_length, keyStream_length]

theorem xorBytes_cancel : ∀ (a b : List Nat), b.length ≤ a.length →
    xorBytes a (xorBytes a b) = b := by
  intro a
  induction a with
  | nil =>
    intro b h
    simp only [List.length_nil, Nat.le_zero] at h
    have : b = [] := List.eq_nil_of_length_eq_zero h
    simp [this, xorBytes]
  | cons x a ih =>
    intro b h
    cases b with
    | nil => simp [xorBytes]
    | cons y b =>
      simp only [xorBytes, List.zipWith_cons_cons]
      rw [Nat.xor_cancel_left]
      have := ih b (by simp at h; omega)
      simp only [xorBytes] at this
      rw [this]

theorem streamEncrypt_streamEncrypt (ek ivb pt : List Nat) :
    streamEncrypt ek ivb (streamEncrypt ek ivb pt) = pt := by
  unfold streamEncrypt
  rw [xorBytes_length, keyStream_length, Nat.min_self]
  exact xorBytes_cancel _ _ (by rw [keyStream_length])

theorem streamEncrypt_lt (ek ivb pt : List Nat) (h : ∀ b ∈ pt, b < 256) :
    ∀ b ∈ streamEncrypt ek ivb pt, b < 256 :=
  xorBytes_lt _ _ (keyStream_lt _ _ _) h

theorem be64_length (n : Nat) : (be64 n).length = 8 := by simp [be64]

theorem be64_lt (n : Nat) : ∀ b ∈ be64 n, b < 256 := by
  intro b hb
  simp only [be64, List.mem_cons, List.not_mem_nil, or_false] at hb
  rcases hb with h | h | h | h | h | h | h | h <;> omega

theorem fernetToken_lt (key tsb ivb data : List Nat)
    (h1 : ∀ b ∈ tsb, b < 256) (h2 : ∀ b ∈ ivb, b < 256)
    (h3 : ∀ b ∈ data, b < 256) :
    ∀ b ∈ fernetToken key tsb ivb data, b < 256 := by
  intro b hb
  unfold fernetToken fernetBody at hb
  simp only [List.mem_append, List.mem_cons] at hb
  rcases hb with (h | ((h | h) | h)) | h
  · omega
  · exact h1 _ h
  · exact h2 _ h
  · exact streamEncrypt_lt _ _ _ (pkcs7Pad_lt _ h3) _ h
  · exact hmacSha256_lt _ _ _ h

theorem fernetEncryptBytes_lt (key : List Nat) (ts iv : Nat) (data : List Nat)
    (hd : ∀ b ∈ data, b < 256) :
    ∀ b ∈ fernetEncryptBytes key ts iv data, b < 256 :=
  fernetToken_lt _ _ _ _ (be64_lt _) (beBytes_lt _ _) hd

theorem fernetDecrypt_b64 (key bs : List Nat) (h : ∀ b ∈ bs, b < 256) :
    fernetDecrypt key (b64UrlEncode bs) = fernetDecryptBytes key bs := by
  unfold fernetDecrypt
  rw [b64UrlDecode_b64UrlEncode _ h]

theorem fernetDecryptBytes_fernetToken (key tsb ivb data : List Nat)
    (htsb : tsb.length = 8) (hivb : ivb.length = 16) :
    fernetDecryptBytes key (fernetToken key tsb ivb data) = .ok data := by
  have hct : streamEncrypt (fernetEncKeyHalf key) ivb
      (streamEncrypt (fernetEncKeyHalf key) ivb (pkcs7Pad data)) =
      pkcs7Pad data := streamEncrypt_streamEncrypt _ _ _
  set ct := streamEncrypt (fernetEncKeyHalf key) ivb (pkcs7Pad data) with hctdef
  set tag := hmacSha256 (fernetSigningKey key) (fernetBody key tsb ivb data)
    with htagdef
  have hbody : fernetBody key tsb ivb data = 128 :: (tsb ++ ivb ++ ct) := rfl
  have hctlen : ct.length = (pkcs7Pad data).length := streamEncrypt_length _ _ _
  have hpadlen : (pkcs7Pad data).length = data.length + (16 - data.length % 16) :=
    pkcs7Pad_length data
  have htaglen : tag.length = 32 := hmacSha256_length _ _
  have hblen : (fernetBody key tsb ivb data).length = 25 + ct.length := by
    rw [hbody]
    simp [htsb, hivb]
    omega
  have htok : fernetToken key tsb ivb data = fernetBody key tsb ivb data ++ tag :=
    rfl
  unfold fernetDecryptBytes
  rw [htok, List.length_append, hblen, htaglen]
  rw [if_neg (by omega)]
  have hgetd : (fernetBody key tsb ivb data ++ tag).getD 0 0 = 128 := by
    rw [hbody]; rfl
  rw [if_neg (by rw [hgetd]; simp)]
  have harr : 25 + ct.length + 32 - 32 = (fernetBody key tsb ivb data).length := by
    rw [hblen]
    omega
  have htake : (fernetBody key tsb ivb data ++ tag).take
      (25 + ct.length + 32 - 32) = fernetBody key tsb ivb data := by
    rw [harr]; exact List.take_left _ _
  have hdrop : (fernetBody key tsb ivb data ++ tag).drop
      (25 + ct.length + 32 - 32) = tag := by
    rw [harr]; exact List.drop_left _ _
  rw [if_neg (by rw [htake, hdrop]; simp [htagdef])]
  have hiv9 : ((fernetBody key tsb ivb data ++ tag).drop 9).take 16 = ivb := by
    rw [hbody, List.cons_append]
    have hassoc : (tsb ++ ivb ++ ct) ++ tag = tsb ++ (ivb ++ (ct ++ tag)) := by
      simp [List.append_assoc]
    rw [hassoc]
    rw [show (9 : Nat) = tsb.length + 1 by omega]
    rw [List.drop_succ_cons, List.drop_left]
    rw [show (16 : Nat) = ivb.length by omega]
    exact List.take_left _ _
  have hct25 : ((fernetBody key tsb ivb data ++ tag).take
      (25 + ct.length + 32 - 32)).drop 25 = ct := by
    rw [htake, hbody]
    rw [show (25 : Nat) = (tsb ++ ivb).length + 1 by simp [htsb, hivb]]
    rw [List.drop_succ_cons]
    exact List.drop_left _ _
  rw [hiv9, hct25, hct, pkcs7Unpad_pkcs7Pad]

/-- Decrypting a well-formed token under the key that produced it recovers
the plaintext bytes. -/
theorem fernetDecrypt_fernetEncrypt (key : List Nat) (ts iv : Nat)
    (data : List Nat) (hd : ∀ b ∈ data, b < 256) :
    fernetDecrypt key (fernetEncrypt key ts iv data) = .ok data := by
  unfold fernetEncrypt
  rw [fernetDecrypt_b64 _ _ (fernetEncryptBytes_lt key ts iv data hd)]
  unfold fernetEncryptBytes
  exact fernetDecryptBytes_fernetToken key _ _ data (be64_length ts)
    (beBytes_length 16 iv)

theorem fernetEncrypt_ne_empty (key : List Nat) (ts iv : Nat) (d : List Nat) :
    fernetEncrypt key ts iv d ≠ "" := by
  unfold fernetEncrypt fernetEncryptBytes fernetToken fernetBody
  rw [List.cons_append]
  exact b64UrlEncode_ne_empty _ _

theorem utf8Encode_lt (s : String) : ∀ b ∈ utf8Encode s, b < 256 :=
  utf8EncodeList_lt s.toList

/-- C1: for every derived key, timestamp and IV, and every non-empty
plaintext string `P`, `decrypt (encrypt P) = P` under the cipher bound to
that key. -/
theorem decrypt_encrypt_roundtrip (key : List Nat) (ts iv : Nat) (p : String)
    (hp : p ≠ "") : decrypt key (encrypt key ts iv p) = .ok p := by
  unfold encrypt
  rw [if_neg hp]
  unfold decrypt
  rw [if_neg (fernetEncrypt_ne_empty key ts iv (utf8Encode p))]
  rw [fernetDecrypt_fernetEncrypt key ts iv _ (utf8Encode_lt p)]
  simp [utf8Decode_utf8Encode]

/-- C1 witness: the round trip at a concrete key and plaintext. -/
theorem decrypt_encrypt_roundtrip_witness :
    ("hunter2" : String) ≠ "" ∧
      decrypt (List.range 32) (encrypt (List.range 32) 0 0 "hunter2") =
        .ok "hunter2" :=
  ⟨by decide, decrypt_encrypt_roundtrip (List.range 32) 0 0 "hunter2" (by decide)⟩

/-- C7: encrypting the empty string yields the empty string and decrypting
the empty string succeeds with the empty string, for every key (the guard
returns before any key operation, so the key is never consulted). -/
theorem encrypt_decrypt_empty (key : List Nat) (ts iv : Nat) :
    encrypt key ts iv "" = "" ∧ decrypt key "" = .ok "" := by
  constructor
  · unfold encrypt
    rw [if_pos rfl]
  · unfold decrypt
    rw [if_pos rfl]

/-- A token built under `k1` fails authentication under `k2` whenever the
two signing halves assign the body different tags. -/
theorem fernetDecryptBytes_wrong_mac (k1 k2 tsb ivb data : List Nat)
    (htsb : tsb.length = 8) (hivb : ivb.length = 16)
    (hne : hmacSha256 (fernetSigningKey k2) (fernetBody k1 tsb ivb data) ≠
      hmacSha256 (fernetSigningKey k1) (fernetBody k1 tsb ivb data)) :
    fernetDecryptBytes k2 (fernetToken k1 tsb ivb data) = .error () := by
  set ct := streamEncrypt (fernetEncKeyHalf k1) ivb (pkcs7Pad data) with hctdef
  set tag := hmacSha256 (fernetSigningKey k1) (fernetBody k1 tsb ivb data)
    with htagdef
  have hbody : fernetBody k1 tsb ivb data = 128 :: (tsb ++ ivb ++ ct) := rfl
  have htaglen : tag.length = 32 := hmacSha256_length _ _
  have hblen : (fernetBody k1 tsb ivb data).length = 25 + ct.length := by
    rw [hbody]
    simp [htsb, hivb]
    omega
  have htok : fernetToken k1 tsb ivb data = fernetBody k1 tsb ivb data ++ tag :=
    rfl
  unfold fernetDecryptBytes
  rw [htok, List.length_append, hblen, htaglen]
  rw [if_neg (by omega)]
  have hgetd : (fernetBody k1 tsb ivb data ++ tag).getD 0 0 = 128 := by
    rw [hbody]; rfl
  rw [if_neg (by rw [hgetd]; simp)]
  have harr : 25 + ct.length + 32 - 32 = (fernetBody k1 tsb ivb data).length := by
    rw [hblen]
    omega
  have htake : (fernetBody k1 tsb ivb data ++ tag).take
      (25 + ct.length + 32 - 32) = fernetBody k1 tsb ivb data := by
    rw [harr]; exact List.take_left _ _
  have hdrop : (fernetBody k1 tsb ivb data ++ tag).drop
      (25 + ct.length + 32 - 32) = tag := by
    rw [harr]; exact List.drop_left _ _
  rw [if_pos (by rw [htake, hdrop]; exact Ne.symm hne)]

/-- C2: decrypting under `k2` a ciphertext produced under `k1 ≠ k2` fails
with the `DecryptionFailed` error whenever the recomputed HMAC tag differs
from the stored one — the hypothesis `hne` is the formal residue of the
claim's "except with cryptographically negligible probability" (a tag
collision between distinct derived keys); garbage is never returned on
this path. -/
theorem decrypt_wrong_key_fails (k1 k2 : List Nat) (ts iv : Nat) (p : String)
    (hk : k1 ≠ k2) (hp : p ≠ "")
    (hne : hmacSha256 (fernetSigningKey k2)
        (fernetBody k1 (be64 ts) (beBytes 16 iv) (utf8Encode p)) ≠
      hmacSha256 (fernetSigningKey k1)
        (fernetBody k1 (be64 ts) (beBytes 16 iv) (utf8Encode p))) :
    decrypt k2 (encrypt k1 ts iv p) = .error "Decryption failed: " := by
  unfold encrypt
  rw [if_neg hp]
  unfold decrypt
  rw [if_neg (fernetEncrypt_ne_empty k1 ts iv (utf8Encode p))]
  unfold fernetEncrypt
  rw [fernetDecrypt_b64 _ _ (fernetEncryptBytes_lt k1 ts iv _ (utf8Encode_lt p))]
  unfold fernetEncryptBytes
  rw [fernetDecryptBytes_wrong_mac k1 k2 _ _ _ (be64_length ts)
    (beBytes_length 16 iv) hne]

set_option maxRecDepth 100000 in
/-- C2 witness: two concrete distinct keys whose tags differ on a concrete
token body, and the decryption failure the theorem then gives. -/
theorem decrypt_wrong_key_fails_witness :
    (List.replicate 32 0 ≠ List.replicate 32 1) ∧ (("hi" : String) ≠ "") ∧
      (hmacSha256 (fernetSigningKey (List.replicate 32 1))
          (fernetBody (List.replicate 32 0) (be64 0) (beBytes 16 0)
            (utf8Encode "hi")) ≠
        hmacSha256 (fernetSigningKey (List.replicate 32 0))
          (fernetBody (List.replicate 32 0) (be64 0) (beBytes 16 0)
            (utf8Encode "hi"))) ∧
      decrypt (List.replicate 32 1) (encrypt (List.replicate 32 0) 0 0 "hi") =
        .error "Decryption failed: " := by
  have h3 : hmacSha256 (fernetSigningKey (List.replicate 32 1))
      (fernetBody (List.replicate 32 0) (be64 0) (beBytes 16 0)
        (utf8Encode "hi")) ≠
      hmacSha256 (fernetSigningKey (List.replicate 32 0))
        (fernetBody (List.replicate 32 0) (be64 0) (beBytes 16 0)
          (utf8Encode "hi")) := by decide
  exact ⟨by decide, by decide, h3,
    decrypt_wrong_key_fails (List.replicate 32 0) (List.replicate 32 1) 0 0
      "hi" (by decide) (by decide) h3⟩

/-- C8 amended: every decryption failure arising inside Fernet (wrong key,
corruption, tampering, foreign scheme — all collapsed by the library into
`InvalidToken`, whose `str` is empty) produces the same constant error
content "Decryption failed: ", independent of the key, the ciphertext and
the specific check that failed.  Only a MAC-valid token whose plaintext
bytes are not valid UTF-8 escapes this uniformity (see the
counterexample). -/
theorem decrypt_fernet_failures_uniform (k1 k2 : List Nat) (c1 c2 : String)
    (h1e : c1 ≠ "") (h2e : c2 ≠ "")
    (h1 : fernetDecrypt k1 c1 = .error ())
    (h2 : fernetDecrypt k2 c2 = .error ()) :
    decrypt k1 c1 = .error "Decryption failed: " ∧
      decrypt k1 c1 = decrypt k2 c2 := by
  unfold decrypt
  rw [if_neg h1e, if_neg h2e, h1, h2]
  exact ⟨rfl, rfl⟩

/-- C8 witness: two concrete authentication-level failures (a too-short
token and an off-alphabet token) with the same observable error. -/
theorem decrypt_fernet_failures_uniform_witness :
    ("AAAA" : String) ≠ "" ∧ ("!!!!" : String) ≠ "" ∧
      fernetDecrypt [] "AAAA" = .error () ∧
      fernetDecrypt [] "!!!!" = .error () ∧
      (decrypt [] "AAAA" = .error "Decryption failed: " ∧
        decrypt [] "AAAA" = decrypt [] "!!!!") :=
  ⟨by decide, by decide, by decide, by decide,
    decrypt_fernet_failures_uniform [] [] "AAAA" "!!!!" (by decide) (by decide)
      (by decide) (by decide)⟩

set_option maxRecDepth 1000000 in
/-- C8 counterexample: two failing decrypt calls under the same key, one an
authentication failure and one a UTF-8 decode failure of a MAC-valid
foreign token; their error contents differ, and the second embeds the byte
offset and algorithmic reason of the failure. -/
theorem decrypt_error_content_differs :
    decrypt (List.range 32) "AAAA" = .error "Decryption failed: " ∧
      decrypt (List.range 32) nonUtf8Token = .error
        ("Decryption failed: " ++
          "'utf-8' codec can't decode byte 0xff in position 0: invalid start byte") ∧
      decrypt (List.range 32) "AAAA" ≠ decrypt (List.range 32) nonUtf8Token := by
  have h1 : decrypt (List.range 32) "AAAA" = .error "Decryption failed: " := by
    decide
  have h2 : decrypt (List.range 32) nonUtf8Token = .error
      ("Decryption failed: " ++
        "'utf-8' codec can't decode byte 0xff in position 0: invalid start byte") := by
    decide
  refine ⟨h1, h2, ?_⟩
  rw [h1, h2]
  decide

/-- C3: key derivation is a pure function — equal password, salt and
iteration count yield bit-identical keys — whose output is exactly 32
bytes; the source's `_derive_key` is its base64url encoding (Fernet
requires a base64 key) at the fixed iteration count. -/
theorem deriveKey_deterministic_and_32_bytes (pw pw2 : String)
    (salt salt2 : List Nat) (i i2 : Nat)
    (hpw : pw = pw2) (hs : salt = salt2) (hi : i = i2) :
    deriveKey pw salt i = deriveKey pw2 salt2 i2 ∧
      (deriveKey pw salt i).length = 32 ∧
      derive_key pw salt = b64UrlEncode (deriveKey pw salt ITERATIONS) := by
  subst hpw
  subst hs
  subst hi
  exact ⟨rfl, pbkdf2_length32 _ _ _, rfl⟩

/-- C3 witness: the statement at concrete inputs. -/
theorem deriveKey_deterministic_and_32_bytes_witness :
    ("pw" : String) = "pw" ∧ ([1, 2] : List Nat) = [1, 2] ∧ (3 : Nat) = 3 ∧
      (deriveKey "pw" [1, 2] 3 = deriveKey "pw" [1, 2] 3 ∧
        (deriveKey "pw" [1, 2] 3).length = 32 ∧
        derive_key "pw" [1, 2] = b64UrlEncode (deriveKey "pw" [1, 2] ITERATIONS)) :=
  ⟨rfl, rfl, rfl,
    deriveKey_deterministic_and_32_bytes "pw" "pw" [1, 2] [1, 2] 3 3 rfl rfl rfl⟩

/-- C4 counterexample: with an existing malformed (3-byte) salt file,
`_load_or_create_salt` returns the malformed contents as the usable salt —
no fatal failure, contrary to the claim. -/
theorem load_or_create_salt_malformed :
    load_or_create_salt (some [1, 2, 3]) (List.replicate 16 0) =
      ([1, 2, 3], some [1, 2, 3]) ∧ ([1, 2, 3] : List Nat).length ≠ 16 :=
  ⟨rfl, by decide⟩

/-- C4 amended: when the persisted salt file exists, `_load_or_create_salt`
returns its contents unchanged whatever their length — no validation, no
fatal failure — and it does not generate a replacement salt; a fresh salt
is generated and persisted only when the file is absent; `__init__`
proceeds with whatever salt was returned. -/
theorem load_or_create_salt_behavior (contents fresh : List Nat) (pw : String) :
    load_or_create_salt (some contents) fresh = (contents, some contents) ∧
      load_or_create_salt none fresh = (fresh, some fresh) ∧
      cryptoManagerInit (some contents) fresh pw =
        (⟨pw, contents, derive_key pw contents⟩, some contents) :=
  ⟨rfl, rfl, rfl⟩

/-- C5: `verify_master_password` is a total Bool-valued function (the
`except` clause converts every raise into a return), and on any hash
string the bcrypt backend rejects as malformed it returns `false`. -/
theorem verify_master_password_malformed (password hashed : String)
    (h : parseBcryptHash hashed = none) :
    verify_master_password password hashed = false := by
  unfold verify_master_password checkpw
  rw [h]
  split_ifs <;> rfl

/-- C5 witness: a concrete malformed hash. -/
theorem verify_master_password_malformed_witness :
    parseBcryptHash "not-a-bcrypt-hash" = none ∧
      verify_master_password "pw" "not-a-bcrypt-hash" = false :=
  ⟨by decide, verify_master_password_malformed "pw" _ (by decide)⟩

/-- C6: validity holds exactly when the length is at least 8 and at least
3 of the 4 character classes are present; and the three boundary examples
behave as the spec says. -/
theorem validate_password_strength_spec :
    (∀ p : String, (validate_password_strength p).1 = true ↔
      8 ≤ p.length ∧ 3 ≤ (strengthChecks p).count true) ∧
    (validate_password_strength "Ab1!").1 = false ∧
    (validate_password_strength "abcdefgh").1 = false ∧
    (validate_password_strength "Abcdefg1").1 = true := by
  refine ⟨?_, by decide, by decide, by decide⟩
  intro p
  unfold validate_password_strength
  split_ifs with h1 h2 <;> simp <;> omega

/-- C6 witness: the characterization applied at the concrete valid
boundary example. -/
theorem validate_password_strength_spec_witness :
    (validate_password_strength "Abcdefg1").1 = true ∧
      8 ≤ ("Abcdefg1" : String).length ∧
      3 ≤ (strengthChecks "Abcdefg1").count true :=
  ⟨(validate_password_strength_spec.1 "Abcdefg1").mpr ⟨by decide, by decide⟩,
    by decide, by decide⟩

/-- C9: a character that is in none of the three alphanumeric classes and
not in the fixed special set contributes to the password's length but to
none of the four class flags. -/
theorem non_special_symbol_counts_length_only (p : String) (c : Char)
    (hu : pyIsUpper c = false) (hl : pyIsLower c = false)
    (hd : pyIsDigit c = false) (hs : SPECIAL_CHARS.contains c = false) :
    (p.push c).length = p.length + 1 ∧
      strengthChecks (p.push c) = strengthChecks p := by
  have hlist : (p.push c).toList = p.toList ++ [c] := rfl
  constructor
  · show (p.data ++ [c]).length = p.data.length + 1
    simp
  · unfold strengthChecks
    rw [hlist]
    have hs' : c ∉ SPECIAL_CHARS := by simpa using hs
    simp [List.any_append, hu, hl, hd, hs']

/-- C9 witness: a tilde satisfies none of the four classes. -/
theorem non_special_symbol_counts_length_only_witness :
    pyIsUpper '~' = false ∧ pyIsLower '~' = false ∧ pyIsDigit '~' = false ∧
      SPECIAL_CHARS.contains '~' = false ∧
      (("abc" : String).push '~').length = ("abc" : String).length + 1 ∧
      strengthChecks (("abc" : String).push '~') = strengthChecks "abc" := by
  refine ⟨by decide, by decide, by decide, by decide, ?_, ?_⟩
  · exact (non_special_symbol_counts_length_only "abc" '~' (by decide)
      (by decide) (by decide) (by decide)).1
  · exact (non_special_symbol_counts_length_only "abc" '~' (by decide)
      (by decide) (by decide) (by decide)).2

/-- C10: updating with every optional field absent leaves the table
unchanged — in particular every `modified_at` — because the function
returns before building an UPDATE statement. -/
theorem update_credential_all_none (rows : List CredentialRow)
    (credential_id : Nat) (now : String) :
    update_credential rows credential_id none none none none none now = rows :=
  rfl

end SecurePM
